import Mathlib

/-!
Verification of the MCP-AutoPRX event ingestion and bounded-log query engine.

The definitions below are a shallow embedding of:
* `UnifiedServer.store_event` (unified_server.py, lines 753-762): bounded append
  to the persisted event log;
* the CI query tools (tools/ci_monitor.py): `get_recent_actions_events`,
  `get_workflow_status`, `get_documentation_workflow_status`,
  `get_failed_workflows`;
* the notification senders (tools/slack_notifier.py `send_slack_notification`
  and unified_server.py `UnifiedServer.send_gmail_message`).

Modelling conventions:
* Python dictionaries with a fixed field set become structures whose fields are
  `Option`-valued: `none` models an absent key (or JSON `null`), so `d.get("k")`
  is plain field access and `d["k"]` (which raises `KeyError` when the key is
  absent) lives in `Except String`.
* The persisted events file is `Option (List Event)`: `none` when the file does
  not exist, `some events` for its parsed contents.
* Python string comparison `a > b` on ISO-8601 timestamps is lexicographic by
  code point, matched here by `String` order (`b < a`).
-/

namespace AutoPRX

/-- A `workflow_run` payload as stored inside an event record.  Every field the
queries touch is kept; `none` models an absent key (or JSON `null`). -/
structure WorkflowRun where
  name : Option String
  status : Option String
  conclusion : Option String
  run_number : Option Nat
  updated_at : Option String
  html_url : Option String
  deriving Repr, DecidableEq

/-- One entry of the persisted event log, as built by `store_event`.  The
`check_run` payload is never inspected by any query and is kept opaque; the
`data` copy of the raw payload is not modelled since no query reads it. -/
structure Event where
  timestamp : String
  event_type : String
  action : Option String
  workflow_run : Option WorkflowRun
  check_run : Option String
  repository : Option String
  sender : Option String
  deriving Repr, DecidableEq

/-- Strict lexicographic comparison of two code-point sequences: the order
Python uses for `str` comparison (`run["updated_at"] > stored["updated_at"]`). -/
def charListLt : List Char → List Char → Bool
  | _, [] => false
  | [], _ :: _ => true
  | a :: as, b :: bs => a < b || (a == b && charListLt as bs)

/-- Python string comparison `a < b`, lexicographic by code point. -/
def pyStrLt (a b : String) : Bool :=
  charListLt a.data b.data

/-- Python list slice `l[i:]`: for negative `i` it starts `-i` places from the
end (clamped to the start of the list), for nonnegative `i` at index `i`. -/
def pySliceFrom {α : Type} (l : List α) (i : Int) : List α :=
  if i < 0 then l.drop ((l.length + i).toNat) else l.drop i.toNat

/-- The log-update step of `UnifiedServer.store_event`: append the new event
record to the loaded log and keep the last 100 entries (`events[-100:]`). -/
def store_event (log : List Event) (e : Event) : List Event :=
  pySliceFrom (log ++ [e]) (-100)

/-- The log contents after appending events `es` in order, starting from an
absent events file (`store_event` loads `[]` when the file does not exist). -/
def storeAll (es : List Event) : List Event :=
  es.foldl store_event []

/-- Concrete sample events used by witnesses and counterexamples below. -/
def runBuildDoc : WorkflowRun :=
  { name := some "Build documentation", status := some "completed",
    conclusion := some "success", run_number := some 7,
    updated_at := some "2023-01-02T00:00:00Z",
    html_url := some "https://github.com/Karthik80-hub/MCP-AUTOPRX/actions/runs/7" }

def evBuildDoc : Event :=
  { timestamp := "2023-01-02T00:00:01Z", event_type := "workflow_run",
    action := some "completed", workflow_run := some runBuildDoc,
    check_run := none, repository := some "Karthik80-hub/MCP-AUTOPRX",
    sender := some "Karthik80-hub" }

def runBuildPRDoc : WorkflowRun :=
  { name := some "Build PR Documentation", status := some "completed",
    conclusion := some "failure", run_number := some 3,
    updated_at := some "2024-05-01T10:00:00Z",
    html_url := some "https://github.com/Karthik80-hub/MCP-AUTOPRX/actions/runs/3" }

def evBuildPRDoc : Event :=
  { timestamp := "2024-05-01T10:00:01Z", event_type := "workflow_run",
    action := some "completed", workflow_run := some runBuildPRDoc,
    check_run := none, repository := some "Karthik80-hub/MCP-AUTOPRX",
    sender := some "Karthik80-hub" }

/-- `get_recent_actions_events` (tools/ci_monitor.py, lines 19-27): return the
empty list when the events file is absent, else `events[-limit:]`. -/
def get_recent_actions_events (file : Option (List Event)) (limit : Int) : List Event :=
  match file with
  | none => []
  | some events => pySliceFrom events (-limit)

/-- Outcome of the `requests.post` call: either an HTTP response (status code
and body text) or one of the exceptions the source catches. -/
inductive HttpOutcome where
  | response : Nat → String → HttpOutcome
  | timeoutExc : HttpOutcome
  | connectionErrorExc : HttpOutcome
  | otherExc : String → HttpOutcome
  deriving Repr, DecidableEq

/-- `send_slack_notification` (tools/slack_notifier.py, lines 9-30).
`webhookUrl` is `os.getenv("SLACK_WEBHOOK_URL")` (`none` when unset); `post` is
an oracle for the network call.  A value `.error m` would model an exception
escaping to the caller; the source's `try`/`except` arms catch `Timeout`,
`ConnectionError` and every remaining `Exception`, so each arm returns a status
string. -/
def send_slack_notification (webhookUrl : Option String) (post : HttpOutcome) :
    Except String String :=
  match webhookUrl with
  | none => .ok "Error: SLACK_WEBHOOK_URL environment variable not set"
  | some _ =>
    match post with
    | .response code body =>
      .ok (if code = 200 then "Message sent successfully to Slack"
           else "Failed to send message. Status: " ++ toString code ++
             ", Response: " ++ body)
    | .timeoutExc => .ok "Request timed out. Check your internet connection and try again."
    | .connectionErrorExc => .ok "Connection error. Check your internet connection and webhook URL."
    | .otherExc msg => .ok ("Error sending message: " ++ msg)

/-- Outcome of the SMTP conversation in `send_gmail_message` (connect,
`starttls`, `login`, `sendmail`, `quit`): success, or some step raising an
exception with message text. -/
inductive SmtpOutcome where
  | sent : SmtpOutcome
  | raisesExc : String → SmtpOutcome
  deriving Repr, DecidableEq

/-- `UnifiedServer.send_gmail_message` (unified_server.py, lines 848-894).
Unset or empty environment variables are `none` (Python `not gmail_user`
truthiness); the whole SMTP interaction sits in one `try` whose
`except Exception` arm returns a status string. -/
def send_gmail_message (gmailUser gmailPassword defaultRecipient recipient : Option String)
    (smtp : SmtpOutcome) : Except String String :=
  if gmailUser.isNone ∨ gmailPassword.isNone then
    .ok "Error: GMAIL_USER and GMAIL_APP_PASSWORD not set"
  else
    match (match recipient with | some r => some r | none => defaultRecipient) with
    | none => .ok "Error: No recipient email specified"
    | some r =>
      match smtp with
      | .sent => .ok ("Gmail sent successfully to " ++ r)
      | .raisesExc msg => .ok ("Gmail error: " ++ msg)

/-- A reader-visible state of the events file: parsed contents, or a truncated
(empty, hence unparseable) file. -/
inductive FileView where
  | contents : List Event → FileView
  | truncated : FileView
  deriving Repr, DecidableEq

/-- The reader-visible states of the events file during `store_event`'s persist
step.  The source writes with `open(EVENTS_FILE, "w")` followed by
`json.dump`: opening with mode `"w"` truncates the file in place (leaving an
empty file, which is not a parseable JSON list), and only then is the new log
written.  There is no temporary file and no rename in the source. -/
def persistViews (newLog : List Event) : List FileView :=
  [FileView.truncated, FileView.contents newLog]

/-- The static `KNOWN_WORKFLOWS` table of tools/ci_monitor.py. -/
def KNOWN_WORKFLOWS : List (String × String) :=
  [("Build documentation", "Main branch documentation build"),
   ("Build PR Documentation", "Pull request documentation build"),
   ("Upload PR Documentation", "PR documentation upload to Hugging Face")]

/-- `KNOWN_WORKFLOWS.get(name, "Unknown workflow")`. -/
def knownDescription (name : String) : String :=
  (KNOWN_WORKFLOWS.lookup name).getD "Unknown workflow"

/-- One derived workflow summary, as built inside the query loops. -/
structure WorkflowSummary where
  name : String
  status : String
  conclusion : Option String
  run_number : Nat
  updated_at : String
  html_url : String
  description : String
  deriving Repr, DecidableEq

/-- One call to the `on_ci_event_detected` hook (mcp_instance.py): the
notification-sink invocation recorded by the query loops. -/
structure CINotification where
  event_type : String
  workflow_name : String
  conclusion : Option String
  repo : String
  deriving Repr, DecidableEq

/-- The mutable state of one query pass: the `workflows` dict (a Python dict
preserves insertion order, and updating an existing key keeps its position,
modelled as an ordered association list) and the notifications dispatched so
far. -/
structure ProjState where
  workflows : List (String × WorkflowSummary)
  notifs : List CINotification
  deriving Repr, DecidableEq

/-- Python dict update `d[k] = v`: replace in place when the key exists,
otherwise append at the end. -/
def dictInsert {α : Type} (d : List (String × α)) (k : String) (v : α) :
    List (String × α) :=
  match d with
  | [] => [(k, v)]
  | (k', v') :: rest => if k' = k then (k, v) :: rest else (k', v') :: dictInsert rest k v

/-- The body of the `for event in workflow_events` loop shared by
`get_workflow_status`, `get_documentation_workflow_status` (with
`failedMode := false`) and `get_failed_workflows` (with `failedMode := true`);
the three loop bodies in the source are textually identical except for the
notification trigger.  Unguarded `run["..."]` accesses raise `KeyError`
(`.error`) when the key is absent; the accesses happen in source order: the
freshness test reads `run["name"]` and — only when the name was already seen —
`run["updated_at"]`; a fresh event then also reads `run["status"]`,
`run["run_number"]`, `run["updated_at"]` and `run["html_url"]` while building
the summary dict.  A fresh event triggers `on_ci_event_detected` when its
conclusion is `"success"` or `"failure"` (in failed mode: always, with literal
conclusion `"failure"`), with `event.get("repository", "Unknown")` as repo. -/
def stepEvent (failedMode : Bool) (st : ProjState) (event : Event) :
    Except String ProjState :=
  match event.workflow_run with
  | none => .ok st
  | some run =>
    match run.name with
    | none => .error "KeyError: name"
    | some name =>
      let freshCheck : Except String Bool :=
        match st.workflows.lookup name with
        | none => .ok true
        | some prev =>
          match run.updated_at with
          | none => .error "KeyError: updated_at"
          | some u => .ok (pyStrLt prev.updated_at u)
      match freshCheck with
      | .error err => .error err
      | .ok false => .ok st
      | .ok true =>
        match run.status, run.run_number, run.updated_at, run.html_url with
        | some status, some run_number, some updated_at, some html_url =>
          let summary : WorkflowSummary :=
            { name := name, status := status, conclusion := run.conclusion,
              run_number := run_number, updated_at := updated_at,
              html_url := html_url, description := knownDescription name }
          let notif : List CINotification :=
            if failedMode then
              [{ event_type := "workflow_run", workflow_name := name,
                 conclusion := some "failure",
                 repo := event.repository.getD "Unknown" }]
            else if run.conclusion = some "success" ∨ run.conclusion = some "failure" then
              [{ event_type := "workflow_run", workflow_name := name,
                 conclusion := run.conclusion,
                 repo := event.repository.getD "Unknown" }]
            else []
          .ok { workflows := dictInsert st.workflows name summary,
                notifs := st.notifs ++ notif }
        | none, _, _, _ => .error "KeyError: status"
        | some _, none, _, _ => .error "KeyError: run_number"
        | some _, some _, none, _ => .error "KeyError: updated_at"
        | some _, some _, some _, none => .error "KeyError: html_url"

/-- The `for event in workflow_events` loop: fold `stepEvent` over the filtered
events, stopping at the first raised `KeyError`. -/
def processEventsLoop (failedMode : Bool) : List Event → ProjState → Except String ProjState
  | [], st => .ok st
  | e :: rest, st =>
    match stepEvent failedMode st e with
    | .error err => .error err
    | .ok st' => processEventsLoop failedMode rest st'

/-- `[e for e in events if e.get("workflow_run") is not None]`. -/
def workflowRunEvents (events : List Event) : List Event :=
  events.filter (fun e => e.workflow_run.isSome)

/-- `[e for e in workflow_events if e["workflow_run"].get("name") == workflow_name]`
(`None == workflow_name` is `False`). -/
def filterByName (events : List Event) (n : String) : List Event :=
  events.filter (fun e =>
    match e.workflow_run with
    | some r => r.name = some n
    | none => false)

/-- Result shape of the status query tools: either the
`{"message": "No GitHub Actions events received yet"}` sentinel or a JSON list
of workflow summaries. -/
inductive StatusResult where
  | noEventsMessage : StatusResult
  | summaries : List WorkflowSummary → StatusResult
  deriving Repr, DecidableEq

/-- `get_workflow_status` (tools/ci_monitor.py, lines 29-63): sentinel when the
events file is absent or holds an empty list; otherwise restrict to events
carrying a `workflow_run` (further restricted by name when `workflow_name` is
truthy, i.e. neither `None` nor `""`), run the loop, and return the summaries
in first-seen name order together with the dispatched notifications. -/
def get_workflow_status (file : Option (List Event)) (workflow_name : Option String) :
    Except String (StatusResult × List CINotification) :=
  match file with
  | none => .ok (.noEventsMessage, [])
  | some events =>
    if events.isEmpty then .ok (.noEventsMessage, [])
    else
      let wfEvents := workflowRunEvents events
      let wfEvents := match workflow_name with
        | some n => if n = "" then wfEvents else filterByName wfEvents n
        | none => wfEvents
      match processEventsLoop false wfEvents ⟨[], []⟩ with
      | .error err => .error err
      | .ok st => .ok (.summaries (st.workflows.map Prod.snd), st.notifs)

/-- The fixed `doc_workflows` list of `get_documentation_workflow_status`. -/
def doc_workflows : List String :=
  ["Build documentation", "Build PR Documentation", "Upload PR Documentation"]

/-- `get_documentation_workflow_status` (tools/ci_monitor.py, lines 65-102):
like `get_workflow_status` but keeping only events whose
`workflow_run.get("name")` is in `doc_workflows` (a present `workflow_run`
dict is taken as truthy). -/
def get_documentation_workflow_status (file : Option (List Event)) :
    Except String (StatusResult × List CINotification) :=
  match file with
  | none => .ok (.noEventsMessage, [])
  | some events =>
    if events.isEmpty then .ok (.noEventsMessage, [])
    else
      let wfEvents := events.filter (fun e =>
        match e.workflow_run with
        | some r => match r.name with
          | some n => decide (n ∈ doc_workflows)
          | none => false
        | none => false)
      match processEventsLoop false wfEvents ⟨[], []⟩ with
      | .error err => .error err
      | .ok st => .ok (.summaries (st.workflows.map Prod.snd), st.notifs)

/-- The `failed_workflows` filter of `get_failed_workflows`: events carrying a
`workflow_run` with `workflow_run.get("conclusion") == "failure"`. -/
def failedWorkflowEvents (events : List Event) : List Event :=
  (workflowRunEvents events).filter (fun e =>
    match e.workflow_run with
    | some r => r.conclusion = some "failure"
    | none => false)

/-- `get_failed_workflows` (tools/ci_monitor.py, lines 104-139): like
`get_workflow_status` but keeping only events whose
`workflow_run.get("conclusion") == "failure"`, and notifying on every fresh
event with literal conclusion `"failure"`. -/
def get_failed_workflows (file : Option (List Event)) :
    Except String (StatusResult × List CINotification) :=
  match file with
  | none => .ok (.noEventsMessage, [])
  | some events =>
    if events.isEmpty then .ok (.noEventsMessage, [])
    else
      match processEventsLoop true (failedWorkflowEvents events) ⟨[], []⟩ with
      | .error err => .error err
      | .ok st => .ok (.summaries (st.workflows.map Prod.snd), st.notifs)

/-- Whether an event carries a `workflow_run` whose `name` is the given one. -/
def matchesName (n : String) (e : Event) : Bool :=
  match e.workflow_run with
  | some r => r.name == some n
  | none => false

/-- The `updated_at` carried by an event's `workflow_run`, when present. -/
def updatedOf (e : Event) : Option String :=
  match e.workflow_run with
  | some r => r.updated_at
  | none => none

/-- All five `workflow_run` fields read by unguarded `run["..."]` indexing are
present (vacuously true for events without a `workflow_run`). -/
def runFieldsOk (e : Event) : Bool :=
  match e.workflow_run with
  | none => true
  | some r =>
    r.name.isSome && r.status.isSome && r.run_number.isSome &&
      r.updated_at.isSome && r.html_url.isSome

/-- The summary dict built by the loop body from a fully populated
`workflow_run` (the `getD` defaults are never reached on such a run). -/
def summaryOfRun (r : WorkflowRun) : WorkflowSummary :=
  { name := r.name.getD "", status := r.status.getD "",
    conclusion := r.conclusion, run_number := r.run_number.getD 0,
    updated_at := r.updated_at.getD "", html_url := r.html_url.getD "",
    description := knownDescription (r.name.getD "") }

/-- The notifications a single fresh event dispatches. -/
def notifOf (failedMode : Bool) (e : Event) : List CINotification :=
  match e.workflow_run with
  | none => []
  | some r =>
    if failedMode then
      [{ event_type := "workflow_run", workflow_name := r.name.getD "",
         conclusion := some "failure", repo := e.repository.getD "Unknown" }]
    else if r.conclusion = some "success" ∨ r.conclusion = some "failure" then
      [{ event_type := "workflow_run", workflow_name := r.name.getD "",
         conclusion := r.conclusion, repo := e.repository.getD "Unknown" }]
    else []

/-- Declarative acceptance: an event is fresh exactly when every event before
it in the pass that carries the same workflow name has a strictly smaller
`updated_at`. -/
def acceptedSpec (pre : List Event) (e : Event) : Bool :=
  match e.workflow_run with
  | none => false
  | some r =>
    pre.all (fun e' =>
      match e'.workflow_run with
      | none => true
      | some r' =>
        (r'.name != r.name) ||
          (match r'.updated_at, r.updated_at with
           | some u', some u => pyStrLt u' u
           | _, _ => false))

/-- Declarative notification trace of one query pass: one `notifOf` burst per
accepted event, scanned left to right with the already-seen prefix. -/
def notifSpecAux (failedMode : Bool) : List Event → List Event → List CINotification
  | _, [] => []
  | pre, e :: rest =>
    (if acceptedSpec pre e then notifOf failedMode e else []) ++
      notifSpecAux failedMode (pre ++ [e]) rest

/-- Declarative notification trace of `get_workflow_status(ALL)`. -/
def notifSpec (events : List Event) : List CINotification :=
  notifSpecAux false [] (workflowRunEvents events)

/-- Maximum of two optional timestamps (first argument wins ties, matching the
strict update test of the loop). -/
def optMaxStr : Option String → Option String → Option String
  | none, b => b
  | some a, none => some a
  | some a, some b => some (if pyStrLt a b then b else a)

/-- Greatest `updated_at` among the events of `pre` matching name `n`. -/
def maxUpdated (n : String) (pre : List Event) : Option String :=
  pre.foldl (fun acc e => if matchesName n e then optMaxStr acc (updatedOf e) else acc) none

/-- The four read-only query tools, as one closed query language. -/
inductive Query where
  | recentEvents : Int → Query
  | workflowStatus : Option String → Query
  | docsStatus : Query
  | failedWorkflows : Query
  deriving Repr, DecidableEq

/-- Output of a query tool call. -/
inductive QueryOutput where
  | rawEvents : List Event → QueryOutput
  | statusReport : Except String (StatusResult × List CINotification) → QueryOutput
  deriving Repr

/-- One query tool call against the persisted state.  Every tool opens the
events file for reading only (`open(EVENTS_FILE, "r")`), so the state handed
back is the state that was read. -/
def runQuery : Query → Option (List Event) → QueryOutput × Option (List Event)
  | .recentEvents limit, file => (.rawEvents (get_recent_actions_events file limit), file)
  | .workflowStatus nm, file => (.statusReport (get_workflow_status file nm), file)
  | .docsStatus, file => (.statusReport (get_documentation_workflow_status file), file)
  | .failedWorkflows, file => (.statusReport (get_failed_workflows file), file)

/-- Further concrete sample data for witnesses and counterexamples. -/
def runBuildDocInProgress : WorkflowRun :=
  { name := some "Build documentation", status := some "in_progress",
    conclusion := some "in_progress", run_number := some 6,
    updated_at := some "2023-01-01T00:00:00Z",
    html_url := some "https://github.com/Karthik80-hub/MCP-AUTOPRX/actions/runs/6" }

def evBuildDocInProgress : Event :=
  { timestamp := "2023-01-01T00:00:01Z", event_type := "workflow_run",
    action := some "in_progress", workflow_run := some runBuildDocInProgress,
    check_run := none, repository := some "Karthik80-hub/MCP-AUTOPRX",
    sender := some "Karthik80-hub" }

def runBuildPRDocEarly : WorkflowRun :=
  { name := some "Build PR Documentation", status := some "completed",
    conclusion := some "failure", run_number := some 2,
    updated_at := some "2024-04-01T10:00:00Z",
    html_url := some "https://github.com/Karthik80-hub/MCP-AUTOPRX/actions/runs/2" }

def evBuildPRDocEarly : Event :=
  { timestamp := "2024-04-01T10:00:01Z", event_type := "workflow_run",
    action := some "completed", workflow_run := some runBuildPRDocEarly,
    check_run := none, repository := some "Karthik80-hub/MCP-AUTOPRX",
    sender := some "Karthik80-hub" }

/-- A stale run for "Build documentation" that lacks `html_url`. -/
def runStaleNoUrl : WorkflowRun :=
  { name := some "Build documentation", status := some "completed",
    conclusion := some "success", run_number := some 5,
    updated_at := some "2023-01-01T00:00:00Z", html_url := none }

def evStaleNoUrl : Event :=
  { timestamp := "2023-01-01T00:00:02Z", event_type := "workflow_run",
    action := some "completed", workflow_run := some runStaleNoUrl,
    check_run := none, repository := some "Karthik80-hub/MCP-AUTOPRX",
    sender := some "Karthik80-hub" }

/-- `e'` is dominated with respect to workflow name `n` and timestamp `u`:
if `e'` carries a `workflow_run` named `n`, its `updated_at` is present and
strictly (lexicographically) below `u`. -/
def domBy (n u : String) (e' : Event) : Bool :=
  match e'.workflow_run with
  | none => true
  | some r' =>
    (r'.name != some n) ||
      (match r'.updated_at with
       | some u' => pyStrLt u' u
       | none => false)

/-- A run lacking its `name` field. -/
def runNoName : WorkflowRun :=
  { name := none, status := some "completed", conclusion := some "success",
    run_number := some 4, updated_at := some "2023-01-03T00:00:00Z",
    html_url := some "https://github.com/Karthik80-hub/MCP-AUTOPRX/actions/runs/4" }

def evNoName : Event :=
  { timestamp := "2023-01-03T00:00:01Z", event_type := "workflow_run",
    action := some "completed", workflow_run := some runNoName,
    check_run := none, repository := some "Karthik80-hub/MCP-AUTOPRX",
    sender := some "Karthik80-hub" }

/-- `optLtB o u`: every timestamp in `o` is strictly below `u`. -/
def optLtB : Option String → String → Bool
  | none, _ => true
  | some a, u => pyStrLt a u

theorem pySliceFrom_neg_eq {α : Type} (l : List α) (k : Nat) (hk : 0 < k) :
    pySliceFrom l (-(k : Int)) = l.drop (l.length - k) := by
  unfold pySliceFrom
  rw [if_pos (by omega : -(k : Int) < 0)]
  congr 1
  omega

theorem store_event_eq (log : List Event) (e : Event) :
    store_event log e = (log ++ [e]).drop (log.length + 1 - 100) := by
  unfold store_event pySliceFrom
  rw [if_pos (by norm_num : (-100 : Int) < 0)]
  congr 1
  simp only [List.length_append, List.length_cons, List.length_nil]
  omega

theorem foldl_store_event (es : List Event) : ∀ log : List Event, log.length ≤ 100 →
    es.foldl store_event log = (log ++ es).drop (log.length + es.length - 100) := by
  induction es with
  | nil =>
    intro log hlen
    rw [List.foldl_nil, List.append_nil, List.length_nil]
    rw [show log.length + 0 - 100 = 0 from by omega, List.drop_zero]
  | cons e es ih =>
    intro log hlen
    rw [List.foldl_cons]
    have hstep : store_event log e = (log ++ [e]).drop (log.length + 1 - 100) :=
      store_event_eq log e
    have hlen' : (store_event log e).length ≤ 100 := by
      rw [hstep, List.length_drop]
      simp only [List.length_append, List.length_cons, List.length_nil]
      omega
    rw [ih _ hlen', hstep]
    have hle : log.length + 1 - 100 ≤ (log ++ [e]).length := by
      simp only [List.length_append, List.length_cons, List.length_nil]
      omega
    rw [← List.drop_append_of_le_length hle, List.drop_drop]
    have hlist : log ++ [e] ++ es = log ++ e :: es := by simp
    rw [hlist]
    congr 1
    simp only [List.length_drop, List.length_append, List.length_cons, List.length_nil]
    omega

/-- Claim C1: starting from an absent log, appending N events via `store_event`
leaves exactly the last `min N 100` of them in append order (oldest first):
eviction only ever drops the oldest entries, and the log length never
exceeds 100. -/
theorem storeAll_keeps_last_100 (es : List Event) :
    storeAll es = es.drop (es.length - 100) ∧
    (storeAll es).length = min es.length 100 := by
  have h2 := foldl_store_event es [] (by simp)
  simp only [List.nil_append, List.length_nil, Nat.zero_add] at h2
  have h : storeAll es = es.drop (es.length - 100) := h2
  refine ⟨h, ?_⟩
  rw [h, List.length_drop]
  omega

/-- Claim C6 counterexample: with one stored event and limit 0 the tool returns
the entire log (Python `events[-0:]` is `events[0:]`), i.e. more than 0 records,
so the result is not truncated to the limit. -/
theorem get_recent_actions_events_limit_zero :
    get_recent_actions_events (some [evBuildDoc]) 0 = [evBuildDoc] ∧
    ¬ (get_recent_actions_events (some [evBuildDoc]) 0).length ≤ 0 := by
  constructor
  · rfl
  · intro h
    simp [get_recent_actions_events, pySliceFrom] at h

/-- Claim C6 amended: for every stored event log and every positive limit N,
`get_recent_actions_events` returns exactly the last `min N (log length)`
entries of the log in order (most recent last), never more than N records;
for limit 0 the whole log is returned instead. -/
theorem get_recent_actions_events_positive_limit (events : List Event) (limit : Int)
    (h : 1 ≤ limit) :
    get_recent_actions_events (some events) limit =
      events.drop (events.length - limit.toNat) ∧
    (get_recent_actions_events (some events) limit).length =
      min limit.toNat events.length := by
  have hpos : 0 < limit.toNat := by omega
  have hmain : get_recent_actions_events (some events) limit =
      events.drop (events.length - limit.toNat) := by
    show pySliceFrom events (-limit) = events.drop (events.length - limit.toNat)
    have hneg : -limit = -((limit.toNat : Nat) : Int) := by omega
    rw [hneg, pySliceFrom_neg_eq events limit.toNat hpos]
  refine ⟨hmain, ?_⟩
  rw [hmain, List.length_drop]
  omega

/-- Claim C6 witness: the amended statement applied at a concrete log and
limit 2. -/
theorem get_recent_actions_events_positive_limit_witness :
    get_recent_actions_events (some [evBuildDoc, evBuildPRDoc]) 2 =
      [evBuildDoc, evBuildPRDoc] := by
  have h := get_recent_actions_events_positive_limit [evBuildDoc, evBuildPRDoc] 2
    (by norm_num)
  simpa using h.1

/-- Claim C8: for every environment and every sink outcome (HTTP response of
any status, timeout, connection failure, any other exception; SMTP success or
any raised exception, including authentication failures), both notification
senders return an `.ok` human-readable status string — no exception propagates
to the caller. -/
theorem notification_senders_never_raise :
    (∀ (url : Option String) (post : HttpOutcome),
      ∃ s, send_slack_notification url post = .ok s) ∧
    (∀ (user pw defRcpt rcpt : Option String) (smtp : SmtpOutcome),
      ∃ s, send_gmail_message user pw defRcpt rcpt smtp = .ok s) := by
  constructor
  · intro url post
    cases url with
    | none => exact ⟨_, rfl⟩
    | some u => cases post <;> exact ⟨_, rfl⟩
  · intro user pw defRcpt rcpt smtp
    unfold send_gmail_message
    by_cases h : user.isNone ∨ pw.isNone
    · rw [if_pos h]
      exact ⟨_, rfl⟩
    · rw [if_neg h]
      cases rcpt with
      | none =>
        cases defRcpt with
        | none => exact ⟨_, rfl⟩
        | some d => cases smtp <;> exact ⟨_, rfl⟩
      | some r => cases smtp <;> exact ⟨_, rfl⟩

/-- Claim C3 evaluation: the write step of `store_event` exposes an
intermediate truncated view of the log file that is neither the previously
stored log nor the updated log, so a failure between the truncating `open` and
the completion of `json.dump` loses the previously stored entries — the write
is not all-or-nothing and there is no temporary-file-and-rename discipline. -/
theorem store_event_write_not_atomic :
    FileView.truncated ∈ persistViews (store_event [evBuildDoc] evBuildPRDoc) ∧
    FileView.truncated ≠ FileView.contents [evBuildDoc] ∧
    FileView.truncated ≠ FileView.contents (store_event [evBuildDoc] evBuildPRDoc) := by
  refine ⟨?_, ?_, ?_⟩
  · simp [persistViews]
  · intro h
    cases h
  · intro h
    cases h

/-- Claim C5 counterexample: with a non-empty log holding only a
"Build PR Documentation" event, `get_workflow_status` filtered by
name "Deploy" returns the empty summary list, not the "no events yet"
sentinel. -/
theorem get_workflow_status_no_match_not_sentinel :
    get_workflow_status (some [evBuildPRDoc]) (some "Deploy") =
      .ok (.summaries [], []) ∧
    StatusResult.summaries [] ≠ StatusResult.noEventsMessage := by
  refine ⟨rfl, ?_⟩
  intro h
  exact StatusResult.noConfusion h

/-- Claim C5 amended: when the log is non-empty but the name filter matches no
stored event, `get_workflow_status` returns the empty summary list (with no
notifications); the "no events yet" sentinel is reserved for an absent or
empty log. -/
theorem get_workflow_status_no_match_empty_list (events : List Event) (n : String)
    (hne : events ≠ []) (hn : n ≠ "")
    (hnm : ∀ e ∈ events, e.workflow_run.map WorkflowRun.name ≠ some (some n)) :
    get_workflow_status (some events) (some n) = .ok (.summaries [], []) := by
  obtain ⟨a, l, rfl⟩ : ∃ a l, events = a :: l := by
    cases events with
    | nil => exact absurd rfl hne
    | cons a l => exact ⟨a, l, rfl⟩
  have hfilter : filterByName (workflowRunEvents (a :: l)) n = [] := by
    apply List.filter_eq_nil_iff.mpr
    intro e he
    have he' : e ∈ a :: l := List.mem_of_mem_filter he
    have hnme := hnm e he'
    cases hr : e.workflow_run with
    | none => simp [hr]
    | some r =>
      rw [hr] at hnme
      have hname : r.name ≠ some n := by
        intro hcontra
        exact hnme (by simp only [Option.map_some']; rw [hcontra])
      simp [hr, hname]
  unfold get_workflow_status
  simp only [List.isEmpty_cons, Bool.false_eq_true, if_false, if_neg hn, hfilter]
  rfl

/-- Claim C5 witness: the amended statement applied at a one-event log and the
filter name "Deploy". -/
theorem get_workflow_status_no_match_empty_list_witness :
    get_workflow_status (some [evBuildDoc]) (some "Deploy") = .ok (.summaries [], []) := by
  apply get_workflow_status_no_match_empty_list
  · simp
  · decide
  · decide

/-- Claim C9 counterexample: the second event's `workflow_run` lacks
`html_url`, yet `get_workflow_status` completes without error, because the
event is stale (its name was already retained with a greater `updated_at`) and
the loop body never indexes the missing field on the not-taken branch. -/
theorem get_workflow_status_ok_despite_missing_field :
    evStaleNoUrl.workflow_run.map WorkflowRun.html_url = some none ∧
    (get_workflow_status (some [evBuildDoc, evStaleNoUrl]) none).isOk = true := by
  exact ⟨rfl, rfl⟩

/-- Claim C4 counterexample: two events for the same workflow name, both with
conclusion "failure", arriving in strictly increasing `updated_at` order, make
one `get_workflow_status` pass dispatch two notifications for the same
(workflow name, conclusion) pair — not at most one. -/
theorem get_workflow_status_renotifies_same_pair :
    get_workflow_status (some [evBuildPRDocEarly, evBuildPRDoc]) none =
      .ok (.summaries [summaryOfRun runBuildPRDoc],
        [{ event_type := "workflow_run", workflow_name := "Build PR Documentation",
           conclusion := some "failure", repo := "Karthik80-hub/MCP-AUTOPRX" },
         { event_type := "workflow_run", workflow_name := "Build PR Documentation",
           conclusion := some "failure", repo := "Karthik80-hub/MCP-AUTOPRX" }]) ∧
    (∃ u1 u2, updatedOf evBuildPRDocEarly = some u1 ∧
      updatedOf evBuildPRDoc = some u2 ∧ pyStrLt u1 u2 = true) := by
  exact ⟨rfl, "2024-04-01T10:00:00Z", "2024-05-01T10:00:00Z", rfl, rfl, rfl⟩

/-- Claim C7: querying workflow status twice with no append between the calls
reads back the unchanged stored log and produces identical output (summaries
and all): the projection carries no persisted state and is recomputed from the
log contents alone on every call. -/
theorem get_workflow_status_idempotent (file : Option (List Event)) (nm : Option String) :
    (runQuery (Query.workflowStatus nm) file).2 = file ∧
    (runQuery (Query.workflowStatus nm) ((runQuery (Query.workflowStatus nm) file).2)).1 =
      (runQuery (Query.workflowStatus nm) file).1 :=
  ⟨rfl, rfl⟩

/-- Claim C10: every query tool call leaves the persisted event log exactly as
it found it, and so does any sequence of query tool calls. -/
theorem queries_preserve_log (qs : List Query) (file : Option (List Event)) :
    (∀ q, (runQuery q file).2 = file) ∧
    qs.foldl (fun f q => (runQuery q f).2) file = file := by
  have hone : ∀ (q : Query) (f : Option (List Event)), (runQuery q f).2 = f := by
    intro q f
    cases q <;> rfl
  refine ⟨fun q => hone q file, ?_⟩
  induction qs with
  | nil => rfl
  | cons q rest ih =>
    rw [List.foldl_cons, hone q file]
    exact ih

theorem charListLt_irrefl : ∀ as, charListLt as as = false
  | [] => rfl
  | a :: as => by
    simp [charListLt, charListLt_irrefl as, lt_irrefl]

theorem charListLt_asymm : ∀ as bs, charListLt as bs = true → charListLt bs as = false
  | [], [], h => by simp [charListLt] at h
  | [], _ :: _, _ => rfl
  | _ :: _, [], h => by simp [charListLt] at h
  | a :: as, b :: bs, h => by
    simp only [charListLt, Bool.or_eq_true, Bool.and_eq_true, decide_eq_true_eq,
      beq_iff_eq] at h
    rcases h with h | ⟨hab, hrec⟩
    · simp [charListLt, lt_asymm h, ne_of_gt h, beq_iff_eq]
    · subst hab
      simp [charListLt, lt_irrefl, beq_iff_eq, charListLt_asymm as bs hrec]

theorem charListLt_trans : ∀ as bs cs, charListLt as bs = true → charListLt bs cs = true →
    charListLt as cs = true
  | _, _, [], _, h₂ => by simp [charListLt] at h₂
  | [], [], _ :: _, h₁, _ => by simp [charListLt] at h₁
  | [], _ :: _, _ :: _, _, _ => rfl
  | _ :: _, [], _ :: _, h₁, _ => by simp [charListLt] at h₁
  | a :: as, b :: bs, c :: cs, h₁, h₂ => by
    simp only [charListLt, Bool.or_eq_true, Bool.and_eq_true, decide_eq_true_eq,
      beq_iff_eq] at h₁ h₂ ⊢
    rcases h₁ with h₁ | ⟨hab, r₁⟩
    · rcases h₂ with h₂ | ⟨hbc, r₂⟩
      · exact Or.inl (lt_trans h₁ h₂)
      · exact Or.inl (hbc ▸ h₁)
    · rcases h₂ with h₂ | ⟨hbc, r₂⟩
      · exact Or.inl (hab ▸ h₂)
      · exact Or.inr ⟨hab.trans hbc, charListLt_trans as bs cs r₁ r₂⟩

theorem charListLt_conn : ∀ as bs, charListLt as bs = false → charListLt bs as = false →
    as = bs
  | [], [], _, _ => rfl
  | [], _ :: _, h₁, _ => by simp [charListLt] at h₁
  | _ :: _, [], _, h₂ => by simp [charListLt] at h₂
  | a :: as, b :: bs, h₁, h₂ => by
    simp only [charListLt, Bool.or_eq_false_iff, Bool.and_eq_false_iff,
      decide_eq_false_iff_not, beq_eq_false_iff_ne, ne_eq] at h₁ h₂
    have hab : a = b := le_antisymm (not_lt.mp h₂.1) (not_lt.mp h₁.1)
    subst hab
    rcases h₁.2 with h | hr₁
    · exact absurd rfl h
    · rcases h₂.2 with h | hr₂
      · exact absurd rfl h
      · rw [charListLt_conn as bs hr₁ hr₂]

theorem pyStrLt_irrefl (a : String) : pyStrLt a a = false :=
  charListLt_irrefl a.data

theorem pyStrLt_asymm {a b : String} (h : pyStrLt a b = true) : pyStrLt b a = false :=
  charListLt_asymm a.data b.data h

theorem pyStrLt_trans {a b c : String} (h₁ : pyStrLt a b = true) (h₂ : pyStrLt b c = true) :
    pyStrLt a c = true :=
  charListLt_trans a.data b.data c.data h₁ h₂

theorem pyStrLt_conn {a b : String} (h₁ : pyStrLt a b = false) (h₂ : pyStrLt b a = false) :
    a = b := by
  cases a with
  | mk da =>
    cases b with
    | mk db =>
      have : da = db := charListLt_conn da db h₁ h₂
      rw [this]

theorem lookup_dictInsert_self {α : Type} (d : List (String × α)) (k : String) (v : α) :
    (dictInsert d k v).lookup k = some v := by
  induction d with
  | nil => simp [dictInsert, List.lookup]
  | cons p rest ih =>
    obtain ⟨k', v'⟩ := p
    by_cases h : k' = k
    · subst h
      simp [dictInsert, List.lookup]
    · have hbeq : (k == k') = false := beq_eq_false_iff_ne.mpr (Ne.symm h)
      simp [dictInsert, h, List.lookup, hbeq, ih]

theorem lookup_dictInsert_ne {α : Type} (d : List (String × α)) (k n : String) (v : α)
    (h : k ≠ n) : (dictInsert d k v).lookup n = d.lookup n := by
  have hbeq : (n == k) = false := beq_eq_false_iff_ne.mpr (Ne.symm h)
  induction d with
  | nil => simp [dictInsert, List.lookup, hbeq]
  | cons p rest ih =>
    obtain ⟨k', v'⟩ := p
    by_cases hk : k' = k
    · subst hk
      simp [dictInsert, List.lookup, hbeq]
    · by_cases hn : n = k'
      · subst hn
        simp [dictInsert, hk, List.lookup]
      · have hbeq' : (n == k') = false := beq_eq_false_iff_ne.mpr hn
        simp [dictInsert, hk, List.lookup, hbeq', ih]

theorem mem_dictInsert {α : Type} (d : List (String × α)) (k : String) (v : α)
    (p : String × α) (hp : p ∈ dictInsert d k v) : p = (k, v) ∨ p ∈ d := by
  induction d with
  | nil =>
    simp [dictInsert] at hp
    exact Or.inl hp
  | cons q rest ih =>
    obtain ⟨k', v'⟩ := q
    by_cases h : k' = k
    · subst h
      simp only [dictInsert, if_pos rfl] at hp
      rcases List.mem_cons.mp hp with h | h
      · exact Or.inl h
      · exact Or.inr (List.mem_cons_of_mem _ h)
    · simp only [dictInsert, if_neg h] at hp
      rcases List.mem_cons.mp hp with h | h
      · exact Or.inr (h ▸ List.mem_cons_self _ _)
      · rcases ih h with h | h
        · exact Or.inl h
        · exact Or.inr (List.mem_cons_of_mem _ h)

theorem keys_dictInsert {α : Type} (d : List (String × α)) (k : String) (v : α)
    (a : String) (ha : a ∈ (dictInsert d k v).map Prod.fst) :
    a ∈ d.map Prod.fst ∨ a = k := by
  rcases List.mem_map.mp ha with ⟨p, hp, hpa⟩
  rcases mem_dictInsert d k v p hp with h | h
  · right
    rw [← hpa, h]
  · left
    exact List.mem_map.mpr ⟨p, h, hpa⟩

theorem nodup_keys_dictInsert {α : Type} (d : List (String × α)) (k : String) (v : α)
    (hd : (d.map Prod.fst).Nodup) : ((dictInsert d k v).map Prod.fst).Nodup := by
  induction d with
  | nil => simp [dictInsert]
  | cons p rest ih =>
    obtain ⟨k', v'⟩ := p
    simp only [List.map_cons, List.nodup_cons] at hd
    by_cases h : k' = k
    · subst h
      have hins : dictInsert ((k', v') :: rest) k' v = (k', v) :: rest := by
        simp [dictInsert]
      rw [hins]
      simp only [List.map_cons, List.nodup_cons]
      exact hd
    · simp only [dictInsert, if_neg h, List.map_cons, List.nodup_cons]
      refine ⟨?_, ih hd.2⟩
      intro hmem
      rcases keys_dictInsert rest k v k' hmem with hmem | hmem
      · exact hd.1 hmem
      · exact h hmem

theorem stepEvent_no_run (m : Bool) (st : ProjState) (e : Event)
    (h : e.workflow_run = none) : stepEvent m st e = .ok st := by
  simp [stepEvent, h]

theorem stepEvent_noName (m : Bool) (st : ProjState) (e : Event) (r : WorkflowRun)
    (hr : e.workflow_run = some r) (hn : r.name = none) :
    stepEvent m st e = .error "KeyError: name" := by
  simp [stepEvent, hr, hn]

theorem stepEvent_stale (m : Bool) (st : ProjState) (e : Event) (r : WorkflowRun)
    (nm u : String) (s : WorkflowSummary)
    (hr : e.workflow_run = some r) (hn : r.name = some nm) (hu : r.updated_at = some u)
    (hlk : st.workflows.lookup nm = some s) (hlt : pyStrLt s.updated_at u = false) :
    stepEvent m st e = .ok st := by
  simp [stepEvent, hr, hn, hu, hlk, hlt]

theorem stepEvent_accept (m : Bool) (st : ProjState) (e : Event) (r : WorkflowRun)
    (nm stat u url : String) (rn : Nat)
    (hr : e.workflow_run = some r) (hn : r.name = some nm) (hst : r.status = some stat)
    (hrn : r.run_number = some rn) (hu : r.updated_at = some u) (hurl : r.html_url = some url)
    (hfresh : st.workflows.lookup nm = none ∨
      ∃ s, st.workflows.lookup nm = some s ∧ pyStrLt s.updated_at u = true) :
    stepEvent m st e =
      .ok ⟨dictInsert st.workflows nm (summaryOfRun r), st.notifs ++ notifOf m e⟩ := by
  rcases hfresh with hlk | ⟨s, hlk, hlt⟩
  · simp [stepEvent, hr, hn, hst, hrn, hu, hurl, hlk, summaryOfRun, notifOf,
      knownDescription]
  · simp [stepEvent, hr, hn, hst, hrn, hu, hurl, hlk, hlt, summaryOfRun, notifOf,
      knownDescription]

theorem stepEvent_ok_inv (m : Bool) (st : ProjState) (e : Event) (st' : ProjState)
    (h : stepEvent m st e = .ok st') :
    (st' = st) ∨
    (∃ r nm, e.workflow_run = some r ∧ r.name = some nm ∧
      (st.workflows.lookup nm = none ∨
        ∃ s u, st.workflows.lookup nm = some s ∧ r.updated_at = some u ∧
          pyStrLt s.updated_at u = true) ∧
      st' = ⟨dictInsert st.workflows nm (summaryOfRun r),
        st.notifs ++ notifOf m e⟩) := by
  cases hr : e.workflow_run with
  | none =>
    left
    rw [stepEvent_no_run m st e hr] at h
    exact (Except.ok.injEq _ _).mp h |>.symm
  | some r =>
    cases hn : r.name with
    | none =>
      rw [stepEvent_noName m st e r hr hn] at h
      exact absurd h (by simp)
    | some nm =>
      have hfreshSplit :
          st.workflows.lookup nm = none ∨
          (∃ s u, st.workflows.lookup nm = some s ∧ r.updated_at = some u ∧
            pyStrLt s.updated_at u = true) ∨
          (∃ s u, st.workflows.lookup nm = some s ∧ r.updated_at = some u ∧
            pyStrLt s.updated_at u = false) ∨
          (∃ s, st.workflows.lookup nm = some s ∧ r.updated_at = none) := by
        cases hlk : st.workflows.lookup nm with
        | none => exact Or.inl rfl
        | some s =>
          cases hu : r.updated_at with
          | none => exact Or.inr (Or.inr (Or.inr ⟨s, rfl, rfl⟩))
          | some u =>
            cases hlt : pyStrLt s.updated_at u with
            | true => exact Or.inr (Or.inl ⟨s, u, rfl, rfl, hlt⟩)
            | false => exact Or.inr (Or.inr (Or.inl ⟨s, u, rfl, rfl, hlt⟩))
      rcases hfreshSplit with hlk | ⟨s, u, hlk, hu, hlt⟩ | ⟨s, u, hlk, hu, hlt⟩ |
        ⟨s, hlk, hu⟩
      · -- fresh: name unseen; the four other fields decide ok vs KeyError
        cases hst : r.status with
        | none => simp [stepEvent, hr, hn, hlk, hst] at h
        | some stat =>
          cases hrn : r.run_number with
          | none => simp [stepEvent, hr, hn, hlk, hst, hrn] at h
          | some rn =>
            cases hu : r.updated_at with
            | none => simp [stepEvent, hr, hn, hlk, hst, hrn, hu] at h
            | some u =>
              cases hurl : r.html_url with
              | none => simp [stepEvent, hr, hn, hlk, hst, hrn, hu, hurl] at h
              | some url =>
                right
                refine ⟨r, nm, rfl, hn, Or.inl hlk, ?_⟩
                rw [stepEvent_accept m st e r nm stat u url rn hr hn hst hrn hu hurl
                  (Or.inl hlk)] at h
                exact ((Except.ok.injEq _ _).mp h).symm
      · -- fresh: strictly newer than the retained summary
        cases hst : r.status with
        | none => simp [stepEvent, hr, hn, hlk, hu, hlt, hst] at h
        | some stat =>
          cases hrn : r.run_number with
          | none => simp [stepEvent, hr, hn, hlk, hu, hlt, hst, hrn] at h
          | some rn =>
            cases hurl : r.html_url with
            | none => simp [stepEvent, hr, hn, hlk, hu, hlt, hst, hrn, hurl] at h
            | some url =>
              right
              refine ⟨r, nm, rfl, hn, Or.inr ⟨s, u, hlk, hu, hlt⟩, ?_⟩
              rw [stepEvent_accept m st e r nm stat u url rn hr hn hst hrn hu hurl
                (Or.inr ⟨s, hlk, hlt⟩)] at h
              exact ((Except.ok.injEq _ _).mp h).symm
      · -- stale
        left
        rw [stepEvent_stale m st e r nm u s hr hn hu hlk hlt] at h
        exact ((Except.ok.injEq _ _).mp h).symm
      · -- updated_at missing while the name was already seen: KeyError
        simp [stepEvent, hr, hn, hlk, hu] at h

theorem processEventsLoop_append (m : Bool) (xs ys : List Event) : ∀ st : ProjState,
    processEventsLoop m (xs ++ ys) st =
      match processEventsLoop m xs st with
      | .error err => .error err
      | .ok st' => processEventsLoop m ys st' := by
  induction xs with
  | nil => intro st; rfl
  | cons e xs ih =>
    intro st
    simp only [List.cons_append, processEventsLoop]
    cases stepEvent m st e with
    | error err => rfl
    | ok st' => exact ih st'

theorem domBy_spec {n u : String} {e' : Event} (h : domBy n u e' = true)
    {r' : WorkflowRun} (hr' : e'.workflow_run = some r') (hn' : r'.name = some n) :
    ∃ u', r'.updated_at = some u' ∧ pyStrLt u' u = true := by
  simp only [domBy, hr', hn', bne_self_eq_false, Bool.false_or] at h
  cases hu' : r'.updated_at with
  | none => rw [hu'] at h; exact absurd h (by simp)
  | some u' =>
    rw [hu'] at h
    exact ⟨u', rfl, h⟩

theorem runFieldsOk_fields {e : Event} {r : WorkflowRun} (hr : e.workflow_run = some r)
    (hf : runFieldsOk e = true) :
    ∃ nm stat u url rn, r.name = some nm ∧ r.status = some stat ∧
      r.run_number = some rn ∧ r.updated_at = some u ∧ r.html_url = some url := by
  simp only [runFieldsOk, hr, Bool.and_eq_true] at hf
  obtain ⟨⟨⟨⟨hn, hs⟩, hrn⟩, hu⟩, hurl⟩ := hf
  rcases Option.isSome_iff_exists.mp hn with ⟨nm, hnm⟩
  rcases Option.isSome_iff_exists.mp hs with ⟨stat, hstat⟩
  rcases Option.isSome_iff_exists.mp hrn with ⟨rn, hrn2⟩
  rcases Option.isSome_iff_exists.mp hu with ⟨u, hu2⟩
  rcases Option.isSome_iff_exists.mp hurl with ⟨url, hurl2⟩
  exact ⟨nm, stat, u, url, rn, hnm, hstat, hrn2, hu2, hurl2⟩

theorem processLoop_ok_of_fieldsOk (m : Bool) :
    ∀ (l : List Event) (st : ProjState), (∀ e ∈ l, runFieldsOk e = true) →
    ∃ st', processEventsLoop m l st = .ok st' := by
  intro l
  induction l with
  | nil => exact fun st _ => ⟨st, rfl⟩
  | cons e rest ih =>
    intro st h
    have he := h e (List.mem_cons_self e rest)
    have hrest : ∀ e' ∈ rest, runFieldsOk e' = true :=
      fun e' he' => h e' (List.mem_cons_of_mem _ he')
    have hstep : ∃ st₁, stepEvent m st e = .ok st₁ := by
      cases hr : e.workflow_run with
      | none => exact ⟨st, stepEvent_no_run m st e hr⟩
      | some r =>
        obtain ⟨nm, stat, u, url, rn, hnm, hstat, hrn, hu, hurl⟩ :=
          runFieldsOk_fields hr he
        cases hlk : st.workflows.lookup nm with
        | none =>
          exact ⟨_, stepEvent_accept m st e r nm stat u url rn hr hnm hstat hrn hu hurl
            (Or.inl hlk)⟩
        | some s =>
          cases hlt : pyStrLt s.updated_at u with
          | true =>
            exact ⟨_, stepEvent_accept m st e r nm stat u url rn hr hnm hstat hrn hu hurl
              (Or.inr ⟨s, hlk, hlt⟩)⟩
          | false => exact ⟨st, stepEvent_stale m st e r nm u s hr hnm hu hlk hlt⟩
    obtain ⟨st₁, hstep⟩ := hstep
    obtain ⟨st', hrest'⟩ := ih st₁ hrest
    exact ⟨st', by simp [processEventsLoop, hstep, hrest']⟩

theorem processLoop_invB (m : Bool) (e : Event) (re : WorkflowRun) (n u : String)
    (he_run : e.workflow_run = some re) :
    ∀ (l : List Event) (st st' : ProjState),
    (∀ e' ∈ l, e' = e ∨ domBy n u e' = true) →
    processEventsLoop m l st = .ok st' →
    (st.workflows.lookup n = none ∨ ∃ s, st.workflows.lookup n = some s ∧
      (pyStrLt s.updated_at u = true ∨ s = summaryOfRun re)) →
    (st'.workflows.lookup n = none ∨ ∃ s, st'.workflows.lookup n = some s ∧
      (pyStrLt s.updated_at u = true ∨ s = summaryOfRun re)) := by
  intro l
  induction l with
  | nil =>
    intro st st' _ hproc hinv
    simp only [processEventsLoop] at hproc
    cases hproc
    exact hinv
  | cons e' rest ih =>
    intro st st' hdom hproc hinv
    simp only [processEventsLoop] at hproc
    cases hstep : stepEvent m st e' with
    | error err => rw [hstep] at hproc; exact absurd hproc (by simp)
    | ok st₁ =>
      rw [hstep] at hproc
      refine ih st₁ st' (fun x hx => hdom x (List.mem_cons_of_mem _ hx)) hproc ?_
      rcases stepEvent_ok_inv m st e' st₁ hstep with heq | ⟨r, nm, hr', hn', _, hst₁⟩
      · rw [heq]; exact hinv
      · by_cases hnm : nm = n
        · subst hnm
          right
          refine ⟨summaryOfRun r, ?_, ?_⟩
          · rw [hst₁]
            exact lookup_dictInsert_self st.workflows nm (summaryOfRun r)
          · rcases hdom e' (List.mem_cons_self e' rest) with heq' | hdomBy
            · subst heq'
              right
              rw [he_run] at hr'
              rw [Option.some.inj hr']
            · obtain ⟨u', hu', hlt⟩ := domBy_spec hdomBy hr' hn'
              left
              simp only [summaryOfRun, hu', Option.getD_some]
              exact hlt
        · rw [hst₁]
          have : (dictInsert st.workflows nm (summaryOfRun r)).lookup n =
              st.workflows.lookup n := lookup_dictInsert_ne _ nm n _ hnm
          rw [this]
          exact hinv

theorem processLoop_invS (m : Bool) (e : Event) (re : WorkflowRun) (n u : String)
    (he_run : e.workflow_run = some re) (he_u : re.updated_at = some u)
    (hSu : (summaryOfRun re).updated_at = u) :
    ∀ (l : List Event) (st st' : ProjState),
    (∀ e' ∈ l, e' = e ∨ domBy n u e' = true) →
    processEventsLoop m l st = .ok st' →
    st.workflows.lookup n = some (summaryOfRun re) →
    st'.workflows.lookup n = some (summaryOfRun re) := by
  intro l
  induction l with
  | nil =>
    intro st st' _ hproc hinv
    simp only [processEventsLoop] at hproc
    cases hproc
    exact hinv
  | cons e' rest ih =>
    intro st st' hdom hproc hinv
    simp only [processEventsLoop] at hproc
    cases hstep : stepEvent m st e' with
    | error err => rw [hstep] at hproc; exact absurd hproc (by simp)
    | ok st₁ =>
      rw [hstep] at hproc
      refine ih st₁ st' (fun x hx => hdom x (List.mem_cons_of_mem _ hx)) hproc ?_
      rcases stepEvent_ok_inv m st e' st₁ hstep with heq | ⟨r, nm, hr', hn', hcond, hst₁⟩
      · rw [heq]; exact hinv
      · by_cases hnm : nm = n
        · subst hnm
          exfalso
          rcases hcond with hcond | ⟨s, u₀, hlk, hu₀, hlt⟩
          · rw [hinv] at hcond
            exact Option.noConfusion hcond
          · rw [hinv] at hlk
            have hsS : s = summaryOfRun re := (Option.some.inj hlk).symm
            rw [hsS, hSu] at hlt
            rcases hdom e' (List.mem_cons_self e' rest) with heq' | hdomBy
            · subst heq'
              rw [he_run] at hr'
              have : r = re := Option.some.inj hr'.symm
              rw [this, he_u] at hu₀
              have : u₀ = u := Option.some.inj hu₀.symm
              rw [this] at hlt
              rw [pyStrLt_irrefl u] at hlt
              exact Bool.noConfusion hlt
            · obtain ⟨u', hu', hlt'⟩ := domBy_spec hdomBy hr' hn'
              rw [hu'] at hu₀
              have : u₀ = u' := Option.some.inj hu₀.symm
              rw [this] at hlt
              rw [pyStrLt_asymm hlt'] at hlt
              exact Bool.noConfusion hlt
        · rw [hst₁]
          have : (dictInsert st.workflows nm (summaryOfRun r)).lookup n =
              st.workflows.lookup n := lookup_dictInsert_ne _ nm n _ hnm
          rw [this]
          exact hinv

theorem processLoop_WSInv (m : Bool) :
    ∀ (l : List Event) (st st' : ProjState), processEventsLoop m l st = .ok st' →
    (st.workflows.map Prod.fst).Nodup ∧ (∀ p ∈ st.workflows, (p.2).name = p.1) →
    (st'.workflows.map Prod.fst).Nodup ∧ ∀ p ∈ st'.workflows, (p.2).name = p.1 := by
  intro l
  induction l with
  | nil =>
    intro st st' hproc hinv
    simp only [processEventsLoop] at hproc
    cases hproc
    exact hinv
  | cons e' rest ih =>
    intro st st' hproc hinv
    simp only [processEventsLoop] at hproc
    cases hstep : stepEvent m st e' with
    | error err => rw [hstep] at hproc; exact absurd hproc (by simp)
    | ok st₁ =>
      rw [hstep] at hproc
      refine ih st₁ st' hproc ?_
      rcases stepEvent_ok_inv m st e' st₁ hstep with heq | ⟨r, nm, _, hn', _, hst₁⟩
      · rw [heq]; exact hinv
      · rw [hst₁]
        constructor
        · exact nodup_keys_dictInsert st.workflows nm (summaryOfRun r) hinv.1
        · intro p hp
          rcases mem_dictInsert st.workflows nm (summaryOfRun r) p hp with hpk | hpm
          · rw [hpk]
            simp [summaryOfRun, hn']
          · exact hinv.2 p hpm

theorem filter_values_nil (ws : List (String × WorkflowSummary)) (n : String)
    (hname : ∀ p ∈ ws, (p.2).name = p.1) (hkeys : n ∉ ws.map Prod.fst) :
    (ws.map Prod.snd).filter (fun s => s.name == n) = [] := by
  apply List.filter_eq_nil_iff.mpr
  intro s hs
  rcases List.mem_map.mp hs with ⟨p, hp, hps⟩
  have h1 : s.name = p.1 := by rw [← hps]; exact hname p hp
  have h2 : p.1 ≠ n := fun hcontra =>
    hkeys (hcontra ▸ List.mem_map.mpr ⟨p, hp, rfl⟩)
  simp [h1, h2]

theorem filter_values_singleton (ws : List (String × WorkflowSummary)) (n : String)
    (S : WorkflowSummary) (hnd : (ws.map Prod.fst).Nodup)
    (hname : ∀ p ∈ ws, (p.2).name = p.1) (hlk : ws.lookup n = some S) :
    (ws.map Prod.snd).filter (fun s => s.name == n) = [S] := by
  induction ws with
  | nil => simp [List.lookup] at hlk
  | cons p rest ih =>
    obtain ⟨k, v⟩ := p
    simp only [List.map_cons, List.nodup_cons] at hnd
    by_cases hk : n = k
    · subst hk
      have hv : v = S := by
        simp [List.lookup] at hlk
        exact hlk
      have hvn : v.name = n := hname (n, v) (List.mem_cons_self _ _)
      have hrest : (rest.map Prod.snd).filter (fun s => s.name == n) = [] :=
        filter_values_nil rest n (fun q hq => hname q (List.mem_cons_of_mem _ hq)) hnd.1
      have hSn : S.name = n := hv ▸ hvn
      simp [List.filter_cons, hv, hSn, hrest]
    · have hbeq : (n == k) = false := beq_eq_false_iff_ne.mpr hk
      have hlk' : rest.lookup n = some S := by
        simp only [List.lookup, hbeq] at hlk
        exact hlk
      have hvk : v.name = k := hname (k, v) (List.mem_cons_self _ _)
      have hvn : (v.name == n) = false := by
        rw [hvk]
        exact beq_eq_false_iff_ne.mpr (Ne.symm hk)
      have := ih hnd.2 (fun q hq => hname q (List.mem_cons_of_mem _ hq)) hlk'
      simp [List.filter_cons, hvn, this]

theorem get_workflow_status_some_ne (evs : List Event) (hne : evs.isEmpty = false) :
    get_workflow_status (some evs) none =
      match processEventsLoop false (workflowRunEvents evs) ⟨[], []⟩ with
      | .error err => .error err
      | .ok st => .ok (.summaries (st.workflows.map Prod.snd), st.notifs) := by
  unfold get_workflow_status
  simp only [hne, Bool.false_eq_true, if_false]

/-- Claim C2: the summary `get_workflow_status(ALL)` emits for a workflow name
comes from the matching event whose `updated_at` string is lexicographically
greatest, regardless of where that event sits in the log: whenever `e` is an
event of the log for name `n` and every other event for `n` has a strictly
smaller `updated_at`, the returned summary list holds exactly one summary for
`n`, and it is built from `e`. -/
theorem get_workflow_status_last_write_wins (evs : List Event) (e : Event)
    (re : WorkflowRun) (n u : String)
    (hmem : e ∈ evs) (he_run : e.workflow_run = some re) (he_name : re.name = some n)
    (he_u : re.updated_at = some u)
    (hfields : ∀ e' ∈ evs, runFieldsOk e' = true)
    (hdom : ∀ e' ∈ evs, e' = e ∨ domBy n u e' = true) :
    ∃ sums notifs,
      get_workflow_status (some evs) none = .ok (.summaries sums, notifs) ∧
      sums.filter (fun s => s.name == n) = [summaryOfRun re] := by
  obtain ⟨nm, stat, u', url, rn, hnm, hstat, hrn, hu', hurl⟩ :=
    runFieldsOk_fields he_run (hfields e hmem)
  have hne : evs.isEmpty = false := by
    cases evs with
    | nil => exact absurd hmem (List.not_mem_nil e)
    | cons a l => rfl
  have hwf_mem : e ∈ workflowRunEvents evs :=
    List.mem_filter.mpr ⟨hmem, by simp [he_run]⟩
  obtain ⟨l1, l2, hsplit⟩ := List.append_of_mem hwf_mem
  have hsub : ∀ x ∈ workflowRunEvents evs, x ∈ evs :=
    fun x hx => List.mem_of_mem_filter hx
  have hl1 : ∀ x ∈ l1, x ∈ evs := fun x hx =>
    hsub x (by rw [hsplit]; exact List.mem_append_left _ hx)
  have hl2 : ∀ x ∈ l2, x ∈ evs := fun x hx =>
    hsub x (by rw [hsplit]; exact List.mem_append_right _ (List.mem_cons_of_mem _ hx))
  have hS_u : (summaryOfRun re).updated_at = u := by
    simp [summaryOfRun, he_u]
  obtain ⟨stA, hA⟩ := processLoop_ok_of_fieldsOk false l1 ⟨[], []⟩
    (fun x hx => hfields x (hl1 x hx))
  have hinvA := processLoop_invB false e re n u he_run l1 ⟨[], []⟩ stA
    (fun x hx => hdom x (hl1 x hx)) hA (Or.inl rfl)
  have hstepAll : ∃ stB, stepEvent false stA e = .ok stB ∧
      stB.workflows.lookup n = some (summaryOfRun re) := by
    rcases hinvA with hlkA | ⟨s, hlkA, hcase⟩
    · refine ⟨_, stepEvent_accept false stA e re n stat u url rn he_run he_name hstat hrn
        he_u hurl (Or.inl hlkA), ?_⟩
      exact lookup_dictInsert_self stA.workflows n (summaryOfRun re)
    · rcases hcase with hlt | hS
      · refine ⟨_, stepEvent_accept false stA e re n stat u url rn he_run he_name hstat hrn
          he_u hurl (Or.inr ⟨s, hlkA, hlt⟩), ?_⟩
        exact lookup_dictInsert_self stA.workflows n (summaryOfRun re)
      · have hstale : pyStrLt s.updated_at u = false := by
          rw [hS, hS_u]
          exact pyStrLt_irrefl u
        refine ⟨stA, stepEvent_stale false stA e re n u s he_run he_name he_u hlkA hstale, ?_⟩
        rw [hlkA, hS]
  obtain ⟨stB, hstepe, hlkB⟩ := hstepAll
  obtain ⟨stC, hC⟩ := processLoop_ok_of_fieldsOk false l2 stB
    (fun x hx => hfields x (hl2 x hx))
  have hlkC := processLoop_invS false e re n u he_run he_u hS_u l2 stB stC
    (fun x hx => hdom x (hl2 x hx)) hC hlkB
  have hfull : processEventsLoop false (workflowRunEvents evs) ⟨[], []⟩ = .ok stC := by
    rw [hsplit, processEventsLoop_append, hA]
    simp only [processEventsLoop]
    rw [hstepe]
    exact hC
  have hws := processLoop_WSInv false (workflowRunEvents evs) ⟨[], []⟩ stC hfull
    ⟨by simp, by simp⟩
  refine ⟨stC.workflows.map Prod.snd, stC.notifs, ?_, ?_⟩
  · rw [get_workflow_status_some_ne evs hne, hfull]
  · exact filter_values_singleton stC.workflows n (summaryOfRun re) hws.1 hws.2 hlkC

/-- Claim C2 witness: the two "Build documentation" events of the claim, with
`updated_at` 2023-01-01 (conclusion in progress) and 2023-01-02 (conclusion
success), in either arrival order: exactly one summary is returned for that
name, built from the later event, with conclusion success. -/
theorem get_workflow_status_last_write_wins_witness :
    (∃ sums notifs,
      get_workflow_status (some [evBuildDocInProgress, evBuildDoc]) none =
        .ok (.summaries sums, notifs) ∧
      sums.filter (fun s => s.name == "Build documentation") =
        [summaryOfRun runBuildDoc]) ∧
    (∃ sums notifs,
      get_workflow_status (some [evBuildDoc, evBuildDocInProgress]) none =
        .ok (.summaries sums, notifs) ∧
      sums.filter (fun s => s.name == "Build documentation") =
        [summaryOfRun runBuildDoc]) ∧
    (summaryOfRun runBuildDoc).conclusion = some "success" := by
  refine ⟨?_, ?_, rfl⟩
  · exact get_workflow_status_last_write_wins [evBuildDocInProgress, evBuildDoc]
      evBuildDoc runBuildDoc "Build documentation" "2023-01-02T00:00:00Z"
      (by decide) rfl rfl rfl (by decide) (by decide)
  · exact get_workflow_status_last_write_wins [evBuildDoc, evBuildDocInProgress]
      evBuildDoc runBuildDoc "Build documentation" "2023-01-02T00:00:00Z"
      (by decide) rfl rfl rfl (by decide) (by decide)

theorem pyStrLt_max (a b u : String) :
    pyStrLt (if pyStrLt a b then b else a) u = (pyStrLt a u && pyStrLt b u) := by
  cases hab : pyStrLt a b with
  | true =>
    rw [if_pos rfl]
    cases hbu : pyStrLt b u with
    | true => simp [pyStrLt_trans hab hbu]
    | false => simp
  | false =>
    rw [if_neg (by simp)]
    cases hau : pyStrLt a u with
    | false => simp
    | true =>
      cases hba : pyStrLt b a with
      | true => simp [pyStrLt_trans hba hau]
      | false =>
        have hab' : a = b := pyStrLt_conn hab hba
        subst hab'
        simp [hau]

theorem domBy_of_not_matches (nm u : String) (e : Event)
    (h : matchesName nm e = false) : domBy nm u e = true := by
  cases hr : e.workflow_run with
  | none => simp [domBy, hr]
  | some r =>
    unfold matchesName at h
    rw [hr] at h
    have hne : r.name ≠ some nm := by simpa using h
    simp [domBy, hr, hne]

theorem step_optLtB (nm u : String) (e : Event) (acc : Option String)
    (hf : runFieldsOk e = true) :
    optLtB (if matchesName nm e then optMaxStr acc (updatedOf e) else acc) u =
      (optLtB acc u && domBy nm u e) := by
  cases hm : matchesName nm e with
  | false =>
    simp [domBy_of_not_matches nm u e hm]
  | true =>
    have hrun : ∃ r, e.workflow_run = some r ∧ r.name = some nm := by
      unfold matchesName at hm
      cases hr : e.workflow_run with
      | none => rw [hr] at hm; exact Bool.noConfusion hm
      | some r =>
        rw [hr] at hm
        exact ⟨r, rfl, by simpa using hm⟩
    obtain ⟨r, hr, hn⟩ := hrun
    obtain ⟨nm', stat, u', url, rn, _, _, _, hu', _⟩ := runFieldsOk_fields hr hf
    have hupd : updatedOf e = some u' := by simp [updatedOf, hr, hu']
    have hdom : domBy nm u e = pyStrLt u' u := by
      simp [domBy, hr, hn, hu']
    rw [hupd, hdom]
    cases acc with
    | none => simp [optMaxStr, optLtB]
    | some a => simp [optMaxStr, optLtB, pyStrLt_max]

theorem maxUpdated_optLtB (nm u : String) : ∀ (pre : List Event) (acc : Option String),
    (∀ e ∈ pre, runFieldsOk e = true) →
    optLtB (pre.foldl (fun acc e =>
      if matchesName nm e then optMaxStr acc (updatedOf e) else acc) acc) u =
      (optLtB acc u && pre.all (domBy nm u)) := by
  intro pre
  induction pre with
  | nil => intro acc _; simp
  | cons e rest ih =>
    intro acc h
    rw [List.foldl_cons, ih _ (fun x hx => h x (List.mem_cons_of_mem _ hx)),
      step_optLtB nm u e acc (h e (List.mem_cons_self e rest))]
    simp [List.all_cons, Bool.and_assoc]

theorem maxUpdated_all (nm u : String) (pre : List Event)
    (h : ∀ e ∈ pre, runFieldsOk e = true) :
    optLtB (maxUpdated nm pre) u = pre.all (domBy nm u) := by
  have := maxUpdated_optLtB nm u pre none h
  simpa [maxUpdated] using this

theorem acceptedSpec_eq_all {e : Event} {r : WorkflowRun} {nm u : String}
    (hr : e.workflow_run = some r) (hn : r.name = some nm) (hu : r.updated_at = some u)
    (pre : List Event) : acceptedSpec pre e = pre.all (domBy nm u) := by
  unfold acceptedSpec
  rw [hr]
  induction pre with
  | nil => rfl
  | cons e' rest ih =>
    simp only [List.all_cons, ih]
    congr 1
    cases hr' : e'.workflow_run with
    | none => simp [domBy, hr']
    | some r' =>
      simp only [domBy, hr', hn, hu]
      cases hu' : r'.updated_at with
      | none => rfl
      | some u' => rfl

theorem maxUpdated_append (nm : String) (pre : List Event) (e : Event) :
    maxUpdated nm (pre ++ [e]) =
      (if matchesName nm e then optMaxStr (maxUpdated nm pre) (updatedOf e)
       else maxUpdated nm pre) := by
  unfold maxUpdated
  rw [List.foldl_append]
  rfl

/-- The operational query loop dispatches exactly the declarative notification
trace: one `notifOf` burst per event whose `updated_at` strictly tops every
earlier same-name event, scanned left to right. -/
theorem processLoop_notifTrace (m : Bool) :
    ∀ (l pre : List Event) (st : ProjState),
    (∀ e ∈ pre, runFieldsOk e = true) →
    (∀ e ∈ l, runFieldsOk e = true) →
    (∀ nm, (st.workflows.lookup nm).map WorkflowSummary.updated_at = maxUpdated nm pre) →
    ∃ ws', processEventsLoop m l st = .ok ⟨ws', st.notifs ++ notifSpecAux m pre l⟩ ∧
      ∀ nm, (ws'.lookup nm).map WorkflowSummary.updated_at = maxUpdated nm (pre ++ l) := by
  intro l
  induction l with
  | nil =>
    intro pre st _ _ hInv
    refine ⟨st.workflows, ?_, ?_⟩
    · show Except.ok st = _
      rw [show notifSpecAux m pre [] = [] from rfl, List.append_nil]
    · intro nm
      rw [List.append_nil]
      exact hInv nm
  | cons e rest ih =>
    intro pre st hpre hl hInv
    have hfe : runFieldsOk e = true := hl e (List.mem_cons_self e rest)
    have hrest : ∀ x ∈ rest, runFieldsOk x = true :=
      fun x hx => hl x (List.mem_cons_of_mem _ hx)
    have hpre' : ∀ x ∈ pre ++ [e], runFieldsOk x = true := by
      intro x hx
      rcases List.mem_append.mp hx with hx | hx
      · exact hpre x hx
      · rw [List.mem_singleton.mp hx]
        exact hfe
    have hassoc : (pre ++ [e]) ++ rest = pre ++ e :: rest := by simp
    cases hr : e.workflow_run with
    | none =>
      have hstep := stepEvent_no_run m st e hr
      have hacc : acceptedSpec pre e = false := by simp [acceptedSpec, hr]
      have hmatch : ∀ nm, matchesName nm e = false := by
        intro nm
        simp [matchesName, hr]
      have hInv' : ∀ nm, (st.workflows.lookup nm).map WorkflowSummary.updated_at =
          maxUpdated nm (pre ++ [e]) := by
        intro nm
        rw [maxUpdated_append, hmatch nm]
        simp only [Bool.false_eq_true, if_false]
        exact hInv nm
      obtain ⟨ws', hproc, hinv2⟩ := ih (pre ++ [e]) st hpre' hrest hInv'
      refine ⟨ws', ?_, ?_⟩
      · simp only [processEventsLoop, hstep]
        rw [hproc]
        simp [notifSpecAux, hacc]
      · intro nm
        rw [hinv2 nm, hassoc]
    | some r =>
      obtain ⟨nm, stat, u, url, rn, hn, hstat, hrn, hu, hurl⟩ := runFieldsOk_fields hr hfe
      have hacc_eq : acceptedSpec pre e = pre.all (domBy nm u) :=
        acceptedSpec_eq_all hr hn hu pre
      have hopt : optLtB (maxUpdated nm pre) u = pre.all (domBy nm u) :=
        maxUpdated_all nm u pre hpre
      have hmatch : matchesName nm e = true := by
        simp [matchesName, hr, hn]
      have hupd : updatedOf e = some u := by simp [updatedOf, hr, hu]
      have hmatch_ne : ∀ nm₀, nm₀ ≠ nm → matchesName nm₀ e = false := by
        intro nm₀ hne
        unfold matchesName
        simp only [hr]
        rw [hn]
        exact beq_eq_false_iff_ne.mpr (fun hcontra =>
          hne (Option.some.inj hcontra).symm)
      cases hlk : st.workflows.lookup nm with
      | none =>
        have hmax : maxUpdated nm pre = none := by
          rw [← hInv nm, hlk]
          rfl
        have hacc : acceptedSpec pre e = true := by
          rw [hacc_eq, ← hopt, hmax]
          rfl
        have hstep := stepEvent_accept m st e r nm stat u url rn hr hn hstat hrn hu hurl
          (Or.inl hlk)
        have hInv' : ∀ nm₀,
            ((dictInsert st.workflows nm (summaryOfRun r)).lookup nm₀).map
              WorkflowSummary.updated_at = maxUpdated nm₀ (pre ++ [e]) := by
          intro nm₀
          by_cases hnm₀ : nm₀ = nm
          · subst hnm₀
            rw [lookup_dictInsert_self, maxUpdated_append, hmatch]
            rw [if_pos rfl, hmax, hupd]
            simp [summaryOfRun, hu, optMaxStr]
          · rw [lookup_dictInsert_ne _ nm nm₀ _ (fun hcontra => hnm₀ hcontra.symm)]
            rw [maxUpdated_append, hmatch_ne nm₀ hnm₀]
            simp only [Bool.false_eq_true, if_false]
            exact hInv nm₀
        obtain ⟨ws', hproc, hinv2⟩ := ih (pre ++ [e])
          ⟨dictInsert st.workflows nm (summaryOfRun r), st.notifs ++ notifOf m e⟩
          hpre' hrest hInv'
        refine ⟨ws', ?_, ?_⟩
        · simp only [processEventsLoop, hstep]
          rw [hproc]
          simp [notifSpecAux, hacc, List.append_assoc]
        · intro nm₀
          rw [hinv2 nm₀, hassoc]
      | some s =>
        have hmax : maxUpdated nm pre = some s.updated_at := by
          rw [← hInv nm, hlk]
          rfl
        cases hlt : pyStrLt s.updated_at u with
        | true =>
          have hacc : acceptedSpec pre e = true := by
            rw [hacc_eq, ← hopt, hmax]
            exact hlt
          have hstep := stepEvent_accept m st e r nm stat u url rn hr hn hstat hrn hu hurl
            (Or.inr ⟨s, hlk, hlt⟩)
          have hInv' : ∀ nm₀,
              ((dictInsert st.workflows nm (summaryOfRun r)).lookup nm₀).map
                WorkflowSummary.updated_at = maxUpdated nm₀ (pre ++ [e]) := by
            intro nm₀
            by_cases hnm₀ : nm₀ = nm
            · subst hnm₀
              rw [lookup_dictInsert_self, maxUpdated_append, hmatch]
              rw [if_pos rfl, hmax, hupd]
              simp [summaryOfRun, hu, optMaxStr, hlt]
            · rw [lookup_dictInsert_ne _ nm nm₀ _ (fun hcontra => hnm₀ hcontra.symm)]
              rw [maxUpdated_append, hmatch_ne nm₀ hnm₀]
              simp only [Bool.false_eq_true, if_false]
              exact hInv nm₀
          obtain ⟨ws', hproc, hinv2⟩ := ih (pre ++ [e])
            ⟨dictInsert st.workflows nm (summaryOfRun r), st.notifs ++ notifOf m e⟩
            hpre' hrest hInv'
          refine ⟨ws', ?_, ?_⟩
          · simp only [processEventsLoop, hstep]
            rw [hproc]
            simp [notifSpecAux, hacc, List.append_assoc]
          · intro nm₀
            rw [hinv2 nm₀, hassoc]
        | false =>
          have hacc : acceptedSpec pre e = false := by
            rw [hacc_eq, ← hopt, hmax]
            exact hlt
          have hstep := stepEvent_stale m st e r nm u s hr hn hu hlk hlt
          have hInv' : ∀ nm₀, (st.workflows.lookup nm₀).map WorkflowSummary.updated_at =
              maxUpdated nm₀ (pre ++ [e]) := by
            intro nm₀
            by_cases hnm₀ : nm₀ = nm
            · subst hnm₀
              rw [maxUpdated_append, hmatch, if_pos rfl, hmax, hupd, hlk]
              simp [optMaxStr, hlt]
            · rw [maxUpdated_append, hmatch_ne nm₀ hnm₀]
              simp only [Bool.false_eq_true, if_false]
              exact hInv nm₀
          obtain ⟨ws', hproc, hinv2⟩ := ih (pre ++ [e]) st hpre' hrest hInv'
          refine ⟨ws', ?_, ?_⟩
          · simp only [processEventsLoop, hstep]
            rw [hproc]
            simp [notifSpecAux, hacc]
          · intro nm₀
            rw [hinv2 nm₀, hassoc]

theorem get_failed_workflows_some_ne (evs : List Event) (hne : evs.isEmpty = false) :
    get_failed_workflows (some evs) =
      match processEventsLoop true (failedWorkflowEvents evs) ⟨[], []⟩ with
      | .error err => .error err
      | .ok st => .ok (.summaries (st.workflows.map Prod.snd), st.notifs) := by
  unfold get_failed_workflows
  simp only [hne, Bool.false_eq_true, if_false]

/-- Claim C4 amended: within a single query pass of `get_workflow_status(ALL)`
or `get_failed_workflows`, the sink is invoked exactly once per fresh event
satisfying the pass's trigger (ALL: conclusion success or failure;
FAILED_ONLY: every fresh filtered event, with literal conclusion failure),
where fresh means every earlier same-name event of the pass has a strictly
smaller `updated_at`.  It is not at-most-once per (name, conclusion) pair:
the dispatched notifications are exactly the declarative trace
`notifSpecAux`, which repeats the pair for each fresh same-conclusion event. -/
theorem notifications_once_per_fresh_event (evs : List Event)
    (hfields : ∀ e ∈ evs, runFieldsOk e = true) :
    (∃ res, get_workflow_status (some evs) none = .ok (res, notifSpec evs)) ∧
    (∃ res, get_failed_workflows (some evs) =
      .ok (res, notifSpecAux true [] (failedWorkflowEvents evs))) := by
  constructor
  · by_cases hevs : evs.isEmpty = true
    · rw [List.isEmpty_iff.mp hevs]
      exact ⟨.noEventsMessage, rfl⟩
    · have hne : evs.isEmpty = false := Bool.not_eq_true _ ▸ Bool.eq_false_iff.mpr hevs
      rw [get_workflow_status_some_ne evs hne]
      obtain ⟨ws', hproc, _⟩ := processLoop_notifTrace false (workflowRunEvents evs) []
        ⟨[], []⟩ (fun x hx => absurd hx (List.not_mem_nil x))
        (fun x hx => hfields x (List.mem_of_mem_filter hx)) (fun nm => rfl)
      refine ⟨.summaries (ws'.map Prod.snd), ?_⟩
      simp only [hproc]
      simp [notifSpec]
  · by_cases hevs : evs.isEmpty = true
    · rw [List.isEmpty_iff.mp hevs]
      exact ⟨.noEventsMessage, rfl⟩
    · have hne : evs.isEmpty = false := Bool.not_eq_true _ ▸ Bool.eq_false_iff.mpr hevs
      rw [get_failed_workflows_some_ne evs hne]
      obtain ⟨ws', hproc, _⟩ := processLoop_notifTrace true (failedWorkflowEvents evs) []
        ⟨[], []⟩ (fun x hx => absurd hx (List.not_mem_nil x))
        (fun x hx => hfields x
          (List.mem_of_mem_filter (List.mem_of_mem_filter hx)))
        (fun nm => rfl)
      refine ⟨.summaries (ws'.map Prod.snd), ?_⟩
      simp only [hproc]
      simp

/-- Claim C4 witness: the amended statement applied to the two-failure log of
the counterexample. -/
theorem notifications_once_per_fresh_event_witness :
    ∃ res, get_workflow_status (some [evBuildPRDocEarly, evBuildPRDoc]) none =
      .ok (res, notifSpec [evBuildPRDocEarly, evBuildPRDoc]) :=
  (notifications_once_per_fresh_event [evBuildPRDocEarly, evBuildPRDoc] (by decide)).1

theorem processLoop_not_ok_of_noName (m : Bool) :
    ∀ (l : List Event) (st : ProjState),
    (∃ e ∈ l, ∃ r, e.workflow_run = some r ∧ r.name = none) →
    ∀ st', processEventsLoop m l st ≠ .ok st' := by
  intro l
  induction l with
  | nil =>
    intro st h st'
    obtain ⟨e, he, _⟩ := h
    exact absurd he (List.not_mem_nil e)
  | cons e rest ih =>
    intro st h st' hcontra
    obtain ⟨x, hx, r, hxr, hxn⟩ := h
    rcases List.mem_cons.mp hx with hxe | hxrest
    · subst hxe
      simp [processEventsLoop, stepEvent_noName m st x r hxr hxn] at hcontra
    · cases hstep : stepEvent m st e with
      | error err => simp [processEventsLoop, hstep] at hcontra
      | ok st₁ =>
        simp only [processEventsLoop, hstep] at hcontra
        exact ih st₁ ⟨x, hxrest, r, hxr, hxn⟩ st' hcontra

/-- Claim C9 amended: `get_workflow_status(ALL)` completes without error
whenever every event's `workflow_run` (if present) carries all of `name`,
`status`, `run_number`, `updated_at` and `html_url`; and an event whose
`workflow_run` lacks `name` always makes the query raise.  A missing field
does not always raise, however: a stale event lacking only `status`,
`run_number` or `html_url` is skipped without error, because the not-taken
freshness branch never indexes those fields (see the counterexample). -/
theorem get_workflow_status_field_errors (evs : List Event) :
    ((∀ e ∈ evs, runFieldsOk e = true) →
      (get_workflow_status (some evs) none).isOk = true) ∧
    ((∃ e ∈ evs, ∃ r, e.workflow_run = some r ∧ r.name = none) →
      (get_workflow_status (some evs) none).isOk = false) := by
  constructor
  · intro hfields
    by_cases hevs : evs.isEmpty = true
    · rw [List.isEmpty_iff.mp hevs]
      rfl
    · have hne : evs.isEmpty = false := Bool.not_eq_true _ ▸ Bool.eq_false_iff.mpr hevs
      rw [get_workflow_status_some_ne evs hne]
      obtain ⟨st', hproc⟩ := processLoop_ok_of_fieldsOk false (workflowRunEvents evs)
        ⟨[], []⟩ (fun x hx => hfields x (List.mem_of_mem_filter hx))
      simp only [hproc]
      rfl
  · intro h
    obtain ⟨x, hx, r, hxr, hxn⟩ := h
    have hne : evs.isEmpty = false := by
      cases evs with
      | nil => exact absurd hx (List.not_mem_nil x)
      | cons a l => rfl
    rw [get_workflow_status_some_ne evs hne]
    have hxmem : x ∈ workflowRunEvents evs :=
      List.mem_filter.mpr ⟨hx, by simp [hxr]⟩
    cases hproc : processEventsLoop false (workflowRunEvents evs) ⟨[], []⟩ with
    | error err => rfl
    | ok st' =>
      exact absurd hproc
        (processLoop_not_ok_of_noName false (workflowRunEvents evs) ⟨[], []⟩
          ⟨x, hxmem, r, hxr, hxn⟩ st')

/-- Claim C9 witness: the amended statement applied to a fully populated
one-event log (no error) and to a log whose single event lacks `name`
(error). -/
theorem get_workflow_status_field_errors_witness :
    (get_workflow_status (some [evBuildDoc]) none).isOk = true ∧
    (get_workflow_status (some [evNoName]) none).isOk = false :=
  ⟨(get_workflow_status_field_errors [evBuildDoc]).1 (by decide),
   (get_workflow_status_field_errors [evNoName]).2
     ⟨evNoName, by simp, runNoName, rfl, rfl⟩⟩

end AutoPRX

